import Mathlib

/-!
# Verification of the netlink spec resolution engine (`nlspec.py`)

Shallow embedding of `tools/net/ynl/lib/nlspec.py`: the data model
(attribute sets, attributes, operations, family), the two operation-ID
assignment algorithms (`_dictify_ops_unified`, `_dictify_ops_directional`),
the per-element `resolve` steps, and the iterative fixed-point resolution
engine in `SpecFamily.__init__`.

YAML scalars relevant to the code are integers and strings; mappings are
modelled as Lean structures whose optional fields stand for optional YAML
keys, and the Python `dict` (insertion-ordered, overwrite keeps position)
is modelled by `dictInsert` on association lists.
-/

/-- Insertion into an insertion-ordered dictionary, as a Python `dict`
assignment behaves: an existing key keeps its position and gets the new
value, a new key is appended at the end. -/
def dictInsert {α β : Type} [DecidableEq α] (k : α) (v : β) : List (α × β) → List (α × β)
  | [] => [(k, v)]
  | (k', v') :: rest => if k = k' then (k, v) :: rest else (k', v') :: dictInsert k v rest

/-- Key lookup in an association-list dictionary (first match). -/
def dictLookup {α β : Type} [DecidableEq α] (k : α) : List (α × β) → Option β
  | [] => none
  | (k', v) :: rest => if k = k' then some v else dictLookup k rest

/-- One attribute entry of an attribute-set declaration: its `name`, an
optional explicit `value`, and the `multi-attr` flag (defaulting false,
via `yaml.get('multi-attr', False)`). -/
structure AttrEntry where
  name : String
  value : Option Int
  multi_attr : Bool
deriving DecidableEq

/-- One attribute-set declaration: `name`, optional `subset-of`, and the
ordered list under `attributes`. -/
structure AttrSetDecl where
  name : String
  subset_of : Option String
  attributes : List AttrEntry
deriving DecidableEq

/-- The value of a `do`/`dump` key of an operation entry. The outer
`Option` of `request`/`reply` states whether that key is present in the
mode mapping; the inner `Option Int` is the optional `value` key below it
(`mode.get('request', {}).get('value', None)`). -/
structure OpMode where
  request : Option (Option Int)
  reply : Option (Option Int)
deriving DecidableEq

/-- One operation entry of the `operations` `list`.  `do_mode` / `dump_mode`
are the optional `do` / `dump` keys, `notify` the optional `notify` key
(naming another operation), `event` whether an `event` key is present,
`attribute_set` the optional `attribute-set` key, `value` the optional
top-level `value` key. -/
structure OpEntry where
  name : String
  value : Option Int
  do_mode : Option OpMode
  dump_mode : Option OpMode
  notify : Option String
  event : Bool
  attribute_set : Option String
deriving DecidableEq

/-- The `operations` block: the optional `enum-model` selector
(`yaml['operations'].get('enum-model', 'unified')`) and the ordered
operation entry list. -/
structure OperationsBlock where
  enum_model : Option String
  list : List OpEntry
deriving DecidableEq

/-- A whole spec document: optional `protocol`, the `attribute-sets`
declarations and the `operations` block. -/
structure SpecDoc where
  protocol : Option String
  attribute_sets : List AttrSetDecl
  operations : OperationsBlock
deriving DecidableEq

/-- Model of `SpecAttr`: a single constructed attribute (`value`, `is_multi`,
plus its declared name). The back references to family and owning set are
omitted; they carry no data used by any claim. -/
structure SpecAttr where
  name : String
  value : Int
  is_multi : Bool
deriving DecidableEq

/-- Model of `SpecAttrSet`: name, `subset_of`, and the two insertion-ordered
dictionaries `attrs` (by name) and `attrs_by_val` (by value). -/
structure SpecAttrSet where
  name : String
  subset_of : Option String
  attrs : List (String × SpecAttr)
  attrs_by_val : List (Int × SpecAttr)
deriving DecidableEq

/-- The attribute-construction loop of `SpecAttrSet.__init__`: running
counter `val`, an entry with an explicit `value` resets the counter, each
constructed attribute uses the current counter, and the counter then
increments by 1. Returns the constructed attributes in declaration
order. -/
def buildAttrs (val : Int) : List AttrEntry → List SpecAttr
  | [] => []
  | e :: rest =>
    let val := match e.value with
      | some v => v
      | none => val
    { name := e.name, value := val, is_multi := e.multi_attr } :: buildAttrs (val + 1) rest

/-- Model of `SpecAttrSet.__init__`: build the attributes and insert each into both
the name-indexed and the value-indexed dictionary. -/
def mkSpecAttrSet (a : AttrSetDecl) : SpecAttrSet :=
  let attrList := buildAttrs 0 a.attributes
  { name := a.name
    subset_of := a.subset_of
    attrs := attrList.foldl (fun acc x => dictInsert x.name x acc) []
    attrs_by_val := attrList.foldl (fun acc x => dictInsert x.value x acc) [] }

/-- Model of `SpecOperation`: combined `value` (set only when request and response
ids agree), `req_value` / `rsp_value`, the three classification flags, and
the raw entry (`yaml`) kept for `resolve`. The `attr_set` field populated
by `resolve` lives in the family state (`attr_set_of`), since in the
source it is a mutation performed during resolution. -/
structure SpecOperation where
  name : String
  yaml : OpEntry
  value : Option Int
  req_value : Option Int
  rsp_value : Option Int
  is_call : Bool
  is_async : Bool
  is_resv : Bool
deriving DecidableEq

/-- Model of `SpecOperation.__init__`: derive `value` from `req_value == rsp_value`,
and the classification flags from which keys the entry declares
(`'do' in yaml or 'dump' in yaml`, `'notify' in yaml or 'event' in yaml`,
reserved when neither). -/
def mkSpecOperation (yaml : OpEntry) (req_value rsp_value : Option Int) : SpecOperation :=
  let is_call := yaml.do_mode.isSome || yaml.dump_mode.isSome
  let is_async := yaml.notify.isSome || yaml.event
  { name := yaml.name
    yaml := yaml
    value := if req_value = rsp_value then req_value else none
    req_value := req_value
    rsp_value := rsp_value
    is_call := is_call
    is_async := is_async
    is_resv := !is_async && !is_call }

/-- Python truthiness of `mode.get(...).get('value', None)`: `None` and
`0` are falsy, any other integer is truthy. -/
def truthyOptInt : Option Int → Bool
  | none => false
  | some n => n != 0

/-- Selection `mode = elem['do'] if 'do' in elem else elem['dump']`. -/
def opMode (e : OpEntry) : OpMode :=
  match e.do_mode with
  | some m => m
  | none => e.dump_mode.getD { request := none, reply := none }

/-- Model of `SpecFamily._dictify_ops_unified`: one shared counter starting at the
given value; a top-level explicit `value` resets it; each entry consumes
the counter for both ids; the counter then advances by 1. -/
def dictifyUnified (val : Int) : List OpEntry → List SpecOperation
  | [] => []
  | e :: rest =>
    let val := match e.value with
      | some v => v
      | none => val
    mkSpecOperation e (some val) (some val) :: dictifyUnified (val + 1) rest

/-- Model of `SpecFamily._dictify_ops_directional`: two counters `req_val`,
`rsp_val`. A `notify` entry takes `rsp_val` (resettable by a top-level
explicit `value`), gets no request id, and leaves the request counter
unchanged for the next entry. A `do`/`dump` entry applies truthy explicit
`request`/`reply` values to the counters, takes both counters, then
advances `req_val` by 1 and `rsp_val` by 1 only if a `reply` is declared.
Anything else is a fatal error. -/
def dictifyDirectional (req_val rsp_val : Int) :
    List OpEntry → Except String (List SpecOperation)
  | [] => .ok []
  | e :: rest =>
    if e.notify.isSome then
      let rsp_val := match e.value with
        | some v => v
        | none => rsp_val
      match dictifyDirectional req_val (rsp_val + 1) rest with
      | .error m => .error m
      | .ok ops => .ok (mkSpecOperation e none (some rsp_val) :: ops)
    else if e.do_mode.isSome || e.dump_mode.isSome then
      let mode := opMode e
      let vreq := mode.request.bind id
      let req_val := if truthyOptInt vreq then vreq.getD 0 else req_val
      let vrsp := mode.reply.bind id
      let rsp_val := if truthyOptInt vrsp then vrsp.getD 0 else rsp_val
      let rsp_inc : Int := if mode.reply.isSome then 1 else 0
      match dictifyDirectional (req_val + 1) (rsp_val + rsp_inc) rest with
      | .error m => .error m
      | .ok ops => .ok (mkSpecOperation e (some req_val) (some rsp_val) :: ops)
    else
      .error "Can not parse directional ops"

/-- The two kinds of failures a `resolve` step can raise: `deferred`
models the `KeyError` / `AttributeError` exceptions caught by the engine
(re-queue and retry), `fatal` a plain `Exception` that propagates and
aborts the whole load. -/
inductive RErr where
  | deferred : String → RErr
  | fatal : String → RErr
deriving DecidableEq

/-- The elements registered on the family's pending resolution list:
the family itself (registered first, carrying the raw document), each
constructed attribute set, each constructed attribute, and each
constructed operation. -/
inductive Elem where
  | fam : SpecDoc → Elem
  | attrSetElem : AttrSetDecl → Elem
  | attrElem : AttrEntry → Elem
  | opElem : SpecOperation → Elem
deriving DecidableEq

/-- Whether an element is the family root. -/
def Elem.isFam : Elem → Bool
  | .fam _ => true
  | _ => false

/-- The mutable state of a `SpecFamily` while it is being resolved:
`proto` and the five dictionaries of the source, plus `attr_set_of`
recording the `op.attr_set` assignments performed by
`SpecOperation.resolve` (keyed by operation name). -/
structure FamilyState where
  proto : String
  attr_sets : List (String × SpecAttrSet)
  msgs : List (String × SpecOperation)
  req_by_value : List (Int × SpecOperation)
  rsp_by_value : List (Int × SpecOperation)
  ops : List (String × SpecOperation)
  attr_set_of : List (String × SpecAttrSet)
deriving DecidableEq

/-- The family state right after `SpecFamily.__init__` set up `proto`
(`yaml.get('protocol', 'genetlink')`) and the empty dictionaries, before
the resolution loop runs. -/
def initState (d : SpecDoc) : FamilyState :=
  { proto := d.protocol.getD "genetlink"
    attr_sets := []
    msgs := []
    req_by_value := []
    rsp_by_value := []
    ops := []
    attr_set_of := [] }

/-- Loop `self.req_by_value[op.req_value] = op` for each operation with a
request id, iterating the operations of `msgs` in order. -/
def reqDictOf (acc : List (Int × SpecOperation)) : List SpecOperation → List (Int × SpecOperation)
  | [] => acc
  | op :: rest =>
    reqDictOf (match op.req_value with
      | some v => dictInsert v op acc
      | none => acc) rest

/-- Loop `self.rsp_by_value[op.rsp_value] = op` for each operation with a
response id. -/
def rspDictOf (acc : List (Int × SpecOperation)) : List SpecOperation → List (Int × SpecOperation)
  | [] => acc
  | op :: rest =>
    rspDictOf (match op.rsp_value with
      | some v => dictInsert v op acc
      | none => acc) rest

/-- Loop `if not op.is_async and 'attribute-set' in op: self.ops[op.name] = op`
for each operation of `msgs` in order. -/
def opsDictOf (acc : List (String × SpecOperation)) : List SpecOperation → List (String × SpecOperation)
  | [] => acc
  | op :: rest =>
    opsDictOf (if !op.is_async && op.yaml.attribute_set.isSome then dictInsert op.name op acc else acc) rest

/-- Loop `self.msgs[op.name] = op` over a list of constructed operations. -/
def msgsOf (acc : List (String × SpecOperation)) : List SpecOperation → List (String × SpecOperation)
  | [] => acc
  | op :: rest => msgsOf (dictInsert op.name op acc) rest

/-- The elements registered while the attribute sets are constructed:
for each declaration, the `SpecAttrSet` registers itself first and then
each of its `SpecAttr`s registers, in declaration order. -/
def attrChildren : List AttrSetDecl → List Elem
  | [] => []
  | a :: rest => Elem.attrSetElem a :: (a.attributes.map Elem.attrElem ++ attrChildren rest)

/-- Model of `SpecOperation.resolve`: three mutually exclusive rules to find the
attribute-set name (explicit `attribute-set` key; borrow from the
operation a `notify` entry names, looked up in `family.msgs`; empty name
for a reserved operation), then — unless the name is falsy (empty) —
re-resolve the name in `family.attr_sets`. Failed lookups are `KeyError`s
(deferred); the fall-through raise is fatal. -/
def resolveOpAttr (op : SpecOperation) (st : FamilyState) : Except RErr (Option SpecAttrSet) :=
  let nameRes : Except RErr String :=
    match op.yaml.attribute_set with
    | some s => .ok s
    | none =>
      match op.yaml.notify with
      | some t =>
        match dictLookup t st.msgs with
        | none => .error (.deferred ("KeyError: " ++ t))
        | some m =>
          match m.yaml.attribute_set with
          | some s => .ok s
          | none => .error (.deferred "KeyError: attribute-set")
      | none =>
        if op.is_resv then .ok ""
        else .error (.fatal ("Can not resolve attribute set for op " ++ op.name))
  match nameRes with
  | .error e => .error e
  | .ok s =>
    if s = "" then .ok none
    else
      match dictLookup s st.attr_sets with
      | none => .error (.deferred ("KeyError: " ++ s))
      | some a => .ok (some a)

/-- Model of `SpecFamily.resolve`: construct every attribute set (registering the
set and its attributes as pending elements), run the selected
operation-ID assignment over the operation list (an unrecognized
`enum-model` selector runs neither), fill `msgs`, and derive
`req_by_value`, `rsp_by_value` and the filtered `ops` from the values of
`msgs`. Returns the updated state and the newly registered elements. -/
def resolveFam (d : SpecDoc) (st : FamilyState) : Except RErr (FamilyState × List Elem) :=
  let attr_sets := d.attribute_sets.foldl (fun acc a => dictInsert a.name (mkSpecAttrSet a) acc) st.attr_sets
  let model := d.operations.enum_model.getD "unified"
  let opsRes : Except RErr (List SpecOperation) :=
    if model = "unified" then .ok (dictifyUnified 0 d.operations.list)
    else if model = "directional" then
      match dictifyDirectional 0 0 d.operations.list with
      | .ok l => .ok l
      | .error m => .error (.fatal m)
    else .ok []
  match opsRes with
  | .error e => .error e
  | .ok opList =>
    let msgs := msgsOf st.msgs opList
    let vals := msgs.map Prod.snd
    .ok ({ st with
            attr_sets := attr_sets
            msgs := msgs
            req_by_value := reqDictOf st.req_by_value vals
            rsp_by_value := rspDictOf st.rsp_by_value vals
            ops := opsDictOf st.ops vals },
         attrChildren d.attribute_sets ++ opList.map Elem.opElem)

/-- One element's `resolve` step. `SpecAttrSet` and `SpecAttr` inherit
the no-op `SpecElement.resolve`. An operation's successful resolve with a
non-empty attribute-set name records the assignment in `attr_set_of`. -/
def resolveElem : Elem → FamilyState → Except RErr (FamilyState × List Elem)
  | .fam d, st => resolveFam d st
  | .attrSetElem _, st => .ok (st, [])
  | .attrElem _, st => .ok (st, [])
  | .opElem op, st =>
    match resolveOpAttr op st with
    | .error e => .error e
    | .ok none => .ok (st, [])
    | .ok (some a) => .ok ({ st with attr_set_of := dictInsert op.name a st.attr_set_of }, [])

/-- One pass of the engine over the pending queue: resolve each element
in order, threading the state; a successful element contributes its newly
registered elements to the next queue and counts as progress; a deferred
element is re-queued and its message recorded as the last observed
failure; a fatal error aborts the whole pass (and load) at once.
Returns the state, the next queue, the number of elements resolved, and
the last observed deferred failure. -/
def runPass : List Elem → FamilyState → List Elem → Nat → Option String →
    Except String (FamilyState × List Elem × Nat × Option String)
  | [], st, nq, n, le => .ok (st, nq, n, le)
  | e :: rest, st, nq, n, le =>
    match resolveElem e st with
    | .ok (st', kids) => runPass rest st' (nq ++ kids) (n + 1) le
    | .error (.deferred m) => runPass rest st (nq ++ [e]) n (some m)
    | .error (.fatal m) => .error m

/-- Outcome of the resolution loop. `success` is reached exactly when a
pass finds the pending queue empty; `fatal` is a propagated exception;
`stuck` is the zero-progress abort, surfacing the last observed deferred
failure; `outOfFuel` marks fuel exhaustion of the bounded model (shown
unreachable for sufficient fuel). -/
inductive LoadResult where
  | success : FamilyState → LoadResult
  | fatal : String → LoadResult
  | stuck : Option String → LoadResult
  | outOfFuel : LoadResult
deriving DecidableEq

/-- The resolution loop of `SpecFamily.__init__`: stop successfully when
the queue is empty; otherwise run a pass; abort (`stuck`) if it resolved
nothing, else continue with the next queue. `fuel` bounds the number of
passes. -/
def runLoop (fuel : Nat) (q : List Elem) (st : FamilyState) (le : Option String) : LoadResult :=
  match q with
  | [] => .success st
  | _ :: _ =>
    match fuel with
    | 0 => .outOfFuel
    | fuel' + 1 =>
      match runPass q st [] 0 le with
      | .error m => .fatal m
      | .ok (st', nq, n, le') => if n = 0 then .stuck le' else runLoop fuel' nq st' le'

/-- An upper bound on the number of elements ever registered for a
document: the family itself, one per attribute set, one per attribute,
and at most one per operation entry. -/
def numElems (d : SpecDoc) : Nat :=
  1 + d.attribute_sets.foldl (fun n a => n + 1 + a.attributes.length) 0 + d.operations.list.length

/-- The whole load: the family registers itself as the only initial
pending element, then the engine iterates; `numElems` passes are enough
(proved below). -/
def loadFamily (d : SpecDoc) : LoadResult :=
  runLoop (numElems d) [Elem.fam d] (initState d) none

/-- Projection of a successful load. -/
def resultState : LoadResult → Option FamilyState
  | .success st => some st
  | _ => none

/-! ## Dictionary lemmas -/

theorem dictLookup_dictInsert_self {α β : Type} [DecidableEq α] (k : α) (v : β)
    (l : List (α × β)) : dictLookup k (dictInsert k v l) = some v := by
  induction l with
  | nil => simp [dictInsert, dictLookup]
  | cons p rest ih =>
    obtain ⟨k', v'⟩ := p
    by_cases h : k = k'
    · simp [dictInsert, dictLookup, h]
    · simp [dictInsert, dictLookup, h, ih]

theorem dictLookup_dictInsert_ne {α β : Type} [DecidableEq α] {k k' : α} (v : β)
    (l : List (α × β)) (h : k ≠ k') :
    dictLookup k (dictInsert k' v l) = dictLookup k l := by
  induction l with
  | nil => simp [dictInsert, dictLookup, h]
  | cons p rest ih =>
    obtain ⟨k'', v''⟩ := p
    by_cases h2 : k' = k''
    · subst h2; simp [dictInsert, dictLookup, h]
    · by_cases h3 : k = k''
      · simp [dictInsert, dictLookup, h2, h3]
      · simp [dictInsert, dictLookup, h2, h3, ih]

theorem dictLookup_mem {α β : Type} [DecidableEq α] {k : α} {v : β} {l : List (α × β)}
    (h : dictLookup k l = some v) : (k, v) ∈ l := by
  induction l with
  | nil => simp [dictLookup] at h
  | cons p rest ih =>
    obtain ⟨k', v'⟩ := p
    by_cases h2 : k = k'
    · simp [dictLookup, h2] at h
      subst h2; subst h; exact List.mem_cons_self _ _
    · simp [dictLookup, h2] at h
      exact List.mem_cons_of_mem _ (ih h)

theorem dictLookup_eq_none {α β : Type} [DecidableEq α] {k : α} {l : List (α × β)}
    (h : k ∉ l.map Prod.fst) : dictLookup k l = none := by
  induction l with
  | nil => simp [dictLookup]
  | cons p rest ih =>
    obtain ⟨k', v'⟩ := p
    simp only [List.map_cons, List.mem_cons] at h
    push_neg at h
    simp [dictLookup, h.1, ih h.2]

theorem keys_dictInsert {α β : Type} [DecidableEq α] {x k : α} {v : β} {l : List (α × β)}
    (h : x ∈ (dictInsert k v l).map Prod.fst) : x = k ∨ x ∈ l.map Prod.fst := by
  induction l with
  | nil => simp [dictInsert] at h; exact Or.inl h
  | cons p rest ih =>
    obtain ⟨k', v'⟩ := p
    by_cases h2 : k = k'
    · simp [dictInsert, h2] at h
      rcases h with h | h
      · exact Or.inl (h2 ▸ h)
      · exact Or.inr (by simp [h])
    · simp [dictInsert, h2] at h
      rcases h with h | h
      · exact Or.inr (by simp [h])
      · rcases ih (by simpa using h) with h3 | h3
        · exact Or.inl h3
        · exact Or.inr (by simp at h3 ⊢; exact Or.inr h3)

theorem dictInsert_of_not_mem_keys {α β : Type} [DecidableEq α] {k : α} (v : β)
    {l : List (α × β)} (h : k ∉ l.map Prod.fst) : dictInsert k v l = l ++ [(k, v)] := by
  induction l with
  | nil => simp [dictInsert]
  | cons p rest ih =>
    obtain ⟨k', v'⟩ := p
    simp only [List.map_cons, List.mem_cons] at h
    push_neg at h
    simp [dictInsert, h.1, ih h.2]

/-! ## C2: the literal directional example -/

/-- Call entry A of the worked example: `do` with no reply, no explicit
values. -/
def opEntryA : OpEntry :=
  { name := "a", value := none, do_mode := some { request := none, reply := none },
    dump_mode := none, notify := none, event := false, attribute_set := some "s" }

/-- Call entry B of the worked example: `do` with a `reply`, no explicit
values. -/
def opEntryB : OpEntry :=
  { name := "b", value := none, do_mode := some { request := none, reply := some none },
    dump_mode := none, notify := none, event := false, attribute_set := some "s" }

/-- Notification entry C of the worked example, notifying B, no explicit
value. -/
def opEntryC : OpEntry :=
  { name := "c", value := none, do_mode := none, dump_mode := none,
    notify := some "b", event := false, attribute_set := none }

/-- C2, counterexample: on the literal scenario `[call A (do, no reply),
call B (do+reply), notify C of B]` the code gives A a *present* response
id, `rsp_value = 0` (the constructor is called with the current `rsp_val`
counter, which is an integer for every call entry) — the claimed
`A.rsp_value absent` is false. -/
theorem c2_directional_example_counterexample :
    (dictifyDirectional 0 0 [opEntryA, opEntryB, opEntryC]).map
        (fun l => l.map (fun o => o.rsp_value)) = .ok [some 0, some 0, some 1]
    ∧ (some (0 : Int) ≠ (none : Option Int)) := by
  exact ⟨rfl, by decide⟩

/-- C2, amended: same scenario, but A's response id is present and equals
0 (the unchanged response-counter baseline): `A.req = 0, A.rsp = 0;
B.req = 1, B.rsp = 0; C.req = absent, C.rsp = 1`. -/
theorem c2_directional_example_amended :
    (dictifyDirectional 0 0 [opEntryA, opEntryB, opEntryC]).map
        (fun l => l.map (fun o => (o.req_value, o.rsp_value))) =
      .ok [(some 0, some 0), (some 1, some 0), (none, some 1)] := by
  rfl

/-! ## C4: explicit request/reply value overrides -/

/-- Call entry with no explicit values, used as a first entry so that the
counters move off their initial 0. -/
def opEntryP : OpEntry :=
  { name := "p", value := none, do_mode := some { request := none, reply := none },
    dump_mode := none, notify := none, event := false, attribute_set := some "s" }

/-- Call entry declaring the explicit request value 0. -/
def opEntryQ : OpEntry :=
  { name := "q", value := none,
    do_mode := some { request := some (some 0), reply := none },
    dump_mode := none, notify := none, event := false, attribute_set := some "s" }

/-- C4, counterexample: the override is guarded by Python truthiness
(`if v:`), so the explicit request value 0 declared by entry q is ignored
and q receives the running counter value 1, not 0. -/
theorem c4_explicit_value_counterexample :
    (dictifyDirectional 0 0 [opEntryP, opEntryQ]).map
        (fun l => l.map (fun o => o.req_value)) = .ok [some 0, some 1]
    ∧ (some (1 : Int) ≠ some (0 : Int)) := by
  exact ⟨rfl, by decide⟩

/-- C4, amended: under the directional policy, for every call entry the
head operation's ids are computed per side independently: an explicit
*nonzero* value under the entry's `request` (resp. `reply`)
sub-declaration replaces the request (resp. response) counter baseline
before assignment, whatever the other side declares; an explicit value
of 0 is falsy in the `if v:` guard and leaves that side's baseline
untouched. -/
theorem c4_explicit_value_amended (req0 rsp0 : Int) (e : OpEntry) (rest : List OpEntry)
    (m : OpMode) (hn : e.notify = none) (hm : opMode e = m)
    (hc : (e.do_mode.isSome || e.dump_mode.isSome) = true)
    (r : List SpecOperation) (hr : dictifyDirectional req0 rsp0 (e :: rest) = .ok r) :
    ∃ op t, r = op :: t ∧ op.yaml = e
      ∧ (∀ v : Int, m.request = some (some v) → v ≠ 0 → op.req_value = some v)
      ∧ (m.request = some (some 0) → op.req_value = some req0)
      ∧ (∀ w : Int, m.reply = some (some w) → w ≠ 0 → op.rsp_value = some w)
      ∧ (m.reply = some (some 0) → op.rsp_value = some rsp0) := by
  simp only [dictifyDirectional, hn, Option.isSome_none, Bool.false_eq_true, if_false, hc,
    if_true, hm] at hr
  split at hr
  · simp at hr
  · rename_i ops heq
    simp only [Except.ok.injEq] at hr
    subst hr
    refine ⟨_, ops, rfl, rfl, ?_, ?_, ?_, ?_⟩
    · intro v hv hv0
      simp [mkSpecOperation, hv, truthyOptInt, hv0]
    · intro hv
      simp [mkSpecOperation, hv, truthyOptInt]
    · intro w hw hw0
      simp [mkSpecOperation, hw, truthyOptInt, hw0]
    · intro hw
      simp [mkSpecOperation, hw, truthyOptInt]

/-- Call entry declaring only an explicit request value 5 and no reply
key at all, for the C4 witness. -/
def opEntryReqOnly : OpEntry :=
  { name := "w1", value := none,
    do_mode := some { request := some (some 5), reply := none },
    dump_mode := none, notify := none, event := false, attribute_set := some "s" }

/-- Call entry declaring only an explicit reply value 0 and no request
value, for the C4 witness. -/
def opEntryZeroReply : OpEntry :=
  { name := "w2", value := none,
    do_mode := some { request := none, reply := some (some 0) },
    dump_mode := none, notify := none, event := false, attribute_set := some "s" }

/-- Witness for C4 amended: a single-sided explicit request value 5
replaces the request baseline 3 while the undeclared reply side keeps
its baseline 4, and a single-sided explicit reply value 0 leaves the
response baseline 7 untouched. -/
theorem c4_explicit_value_amended_witness :
    (∃ op t, [mkSpecOperation opEntryReqOnly (some 5) (some 4)] = op :: t
      ∧ op.req_value = some 5)
    ∧ (∃ op t, [mkSpecOperation opEntryZeroReply (some 2) (some 7)] = op :: t
      ∧ op.rsp_value = some 7) := by
  constructor
  · obtain ⟨op, t, hcons, hy, ha, hb, hc2, hd⟩ :=
      c4_explicit_value_amended 3 4 opEntryReqOnly [] (opMode opEntryReqOnly) rfl rfl rfl
        [mkSpecOperation opEntryReqOnly (some 5) (some 4)] rfl
    exact ⟨op, t, hcons, ha 5 rfl (by decide)⟩
  · obtain ⟨op, t, hcons, hy, ha, hb, hc2, hd⟩ :=
      c4_explicit_value_amended 2 7 opEntryZeroReply [] (opMode opEntryZeroReply) rfl rfl rfl
        [mkSpecOperation opEntryZeroReply (some 2) (some 7)] rfl
    exact ⟨op, t, hcons, hd rfl⟩

/-! ## C7: classification flags -/

/-- Whether exactly one of the three classification flags is set. -/
def exactlyOneFlag (op : SpecOperation) : Bool :=
  (op.is_call && !op.is_async && !op.is_resv)
    || (!op.is_call && op.is_async && !op.is_resv)
    || (!op.is_call && !op.is_async && op.is_resv)

/-- Operation entry declaring both a `do` key and a `notify` key. -/
def opEntryBothKeys : OpEntry :=
  { name := "x", value := none, do_mode := some { request := none, reply := none },
    dump_mode := none, notify := some "y", event := false, attribute_set := none }

/-- C7, counterexample: an entry declaring both `do` and `notify` yields
an operation with `is_call` and `is_async` both true — two of the three
classification flags hold, not exactly one. -/
theorem c7_exactly_one_flag_counterexample :
    (mkSpecOperation opEntryBothKeys (some 0) (some 0)).is_call = true
    ∧ (mkSpecOperation opEntryBothKeys (some 0) (some 0)).is_async = true
    ∧ exactlyOneFlag (mkSpecOperation opEntryBothKeys (some 0) (some 0)) = false := by
  decide

/-- C7, amended: for every constructed operation at least one flag is
true and `is_resv` holds exactly when neither `is_call` nor `is_async`
does; exactly one flag is true provided the entry does not declare both a
call key (`do`/`dump`) and an async key (`notify`/`event`). -/
theorem c7_exactly_one_flag_amended (yaml : OpEntry) (rv sv : Option Int) :
    ((mkSpecOperation yaml rv sv).is_call || (mkSpecOperation yaml rv sv).is_async
      || (mkSpecOperation yaml rv sv).is_resv) = true
    ∧ ((mkSpecOperation yaml rv sv).is_resv
        = (!(mkSpecOperation yaml rv sv).is_call && !(mkSpecOperation yaml rv sv).is_async))
    ∧ (((mkSpecOperation yaml rv sv).is_call && (mkSpecOperation yaml rv sv).is_async) = false →
        exactlyOneFlag (mkSpecOperation yaml rv sv) = true) := by
  simp only [mkSpecOperation, exactlyOneFlag]
  cases yaml.do_mode.isSome || yaml.dump_mode.isSome <;>
    cases yaml.notify.isSome || yaml.event <;> simp

/-- Call-only operation entry for the C7 witness. -/
def opEntryDoOnly : OpEntry :=
  { name := "d", value := none, do_mode := some { request := none, reply := none },
    dump_mode := none, notify := none, event := false, attribute_set := some "s" }

/-- Witness for C7 amended: a do-only entry has exactly one flag set. -/
theorem c7_exactly_one_flag_amended_witness :
    exactlyOneFlag (mkSpecOperation opEntryDoOnly none none) = true :=
  (c7_exactly_one_flag_amended opEntryDoOnly none none).2.2 (by decide)

/-! ## C5: attribute-set value assignment -/

/-- Counter semantics written from the spec's own words, for refinement
comparison with `buildAttrs` ("maintain a running counter starting at 0;
if an entry declares an explicit value, set the counter to that value;
otherwise use the current counter value; ...; increment the counter
by 1"). Takes the entry's optional explicit values only. -/
def specCounterValues : Int → List (Option Int) → List Int
  | _, [] => []
  | c, ov :: rest =>
    let u := match ov with
      | some x => x
      | none => c
    u :: specCounterValues (u + 1) rest

theorem buildAttrs_values_spec (l : List AttrEntry) (v : Int) :
    (buildAttrs v l).map (fun x => x.value) = specCounterValues v (l.map (fun e => e.value)) := by
  induction l generalizing v with
  | nil => rfl
  | cons e rest ih =>
    cases he : e.value <;> simp [buildAttrs, specCounterValues, he, ih]

theorem buildAttrs_names (l : List AttrEntry) (v : Int) :
    (buildAttrs v l).map (fun x => x.name) = l.map (fun e => e.name) := by
  induction l generalizing v with
  | nil => rfl
  | cons e rest ih => cases he : e.value <;> simp [buildAttrs, he, ih]

theorem specCounterValues_replicate_none (k : Nat) (v : Int) :
    specCounterValues v (List.replicate k none) = (List.range k).map (fun i : Nat => v + (i : Int)) := by
  induction k generalizing v with
  | zero => rfl
  | succ n ih =>
    rw [List.replicate_succ, List.range_succ_eq_map]
    simp only [specCounterValues, ih, List.map_cons, List.map_map]
    congr 1
    · simp
    · apply List.map_congr_left
      intro i _
      simp only [Function.comp_apply, Nat.succ_eq_add_one]
      push_cast
      ring

theorem foldl_dictInsert_attrs (l : List SpecAttr) (acc : List (String × SpecAttr))
    (h : (acc.map Prod.fst ++ l.map (fun x => x.name)).Nodup) :
    l.foldl (fun acc x => dictInsert x.name x acc) acc
      = acc ++ l.map (fun x => (x.name, x)) := by
  induction l generalizing acc with
  | nil => simp
  | cons x rest ih =>
    have hdisj := (List.nodup_append.mp h).2.2
    have hx : x.name ∉ acc.map Prod.fst := by
      intro hmem
      exact hdisj hmem (by simp)
    simp only [List.foldl_cons, dictInsert_of_not_mem_keys x hx]
    rw [ih (acc ++ [(x.name, x)]) (by simpa [List.append_assoc] using h)]
    simp

/-- C5: attribute values are assigned by a single forward pass with a
counter starting at 0 — (i) the assigned value list refines the spec's
counter description `specCounterValues`; (ii) with no explicit values a
list of k entries receives exactly 0..k-1 in declaration order; (iii)
with distinct names the name-indexed dictionary lists exactly the built
attributes in declaration order. -/
theorem c5_attr_value_assignment (a : AttrSetDecl) :
    ((buildAttrs 0 a.attributes).map (fun x => x.value)
        = specCounterValues 0 (a.attributes.map (fun e => e.value)))
    ∧ ((∀ e ∈ a.attributes, e.value = none) →
        (buildAttrs 0 a.attributes).map (fun x => x.value)
          = (List.range a.attributes.length).map (fun i : Nat => (i : Int)))
    ∧ ((a.attributes.map (fun e => e.name)).Nodup →
        (mkSpecAttrSet a).attrs = (buildAttrs 0 a.attributes).map (fun x => (x.name, x))) := by
  refine ⟨buildAttrs_values_spec _ _, ?_, ?_⟩
  · intro h
    have hrep : a.attributes.map (fun e => e.value) = List.replicate a.attributes.length none := by
      have h2 : ∀ x ∈ a.attributes.map (fun e => e.value), x = none := by
        intro x hx
        obtain ⟨e, he, rfl⟩ := List.mem_map.mp hx
        exact h e he
      have h3 := List.eq_replicate_of_mem h2
      simpa using h3
    rw [buildAttrs_values_spec, hrep, specCounterValues_replicate_none]
    simp
  · intro h
    have hn : ((buildAttrs 0 a.attributes).map (fun x => x.name)).Nodup := by
      rw [buildAttrs_names]; exact h
    exact foldl_dictInsert_attrs _ [] (by simpa using hn)

/-- Attribute-set declaration with two implicit-value attributes, for the
C5 witness. -/
def attrSetDeclW : AttrSetDecl :=
  { name := "s", subset_of := none,
    attributes := [{ name := "a1", value := none, multi_attr := false },
                   { name := "a2", value := none, multi_attr := true }] }

/-- Witness for C5: a two-entry set with no explicit values gets the
values 0, 1 and its name dictionary lists both attributes in order. -/
theorem c5_attr_value_assignment_witness :
    ((buildAttrs 0 attrSetDeclW.attributes).map (fun x => x.value)
        = (List.range attrSetDeclW.attributes.length).map (fun i : Nat => (i : Int)))
    ∧ ((mkSpecAttrSet attrSetDeclW).attrs
        = (buildAttrs 0 attrSetDeclW.attributes).map (fun x => (x.name, x))) :=
  ⟨(c5_attr_value_assignment attrSetDeclW).2.1 (by decide),
   (c5_attr_value_assignment attrSetDeclW).2.2 (by decide)⟩

/-! ## C6: unified enumeration -/

theorem dictifyUnified_get (l : List OpEntry) (v : Int) (i : Nat)
    (hi : i < (dictifyUnified v l).length) (h : ∀ e ∈ l, e.value = none) :
    ((dictifyUnified v l).get ⟨i, hi⟩).req_value = some (v + (i : Int))
    ∧ ((dictifyUnified v l).get ⟨i, hi⟩).rsp_value = some (v + (i : Int))
    ∧ ((dictifyUnified v l).get ⟨i, hi⟩).value = some (v + (i : Int)) := by
  induction l generalizing v i with
  | nil => simp [dictifyUnified] at hi
  | cons e rest ih =>
    have he : e.value = none := h e (by simp)
    cases i with
    | zero =>
      simp [dictifyUnified, he, mkSpecOperation]
    | succ n =>
      have hrec := ih (v + 1) n (by
          have := hi
          simpa [dictifyUnified, he] using this)
        (fun e' he' => h e' (by simp [he']))
      have hget : ∀ (hj : n + 1 < (dictifyUnified v (e :: rest)).length)
          (hn : n < (dictifyUnified (v + 1) rest).length),
          (dictifyUnified v (e :: rest)).get ⟨n + 1, hj⟩
            = (dictifyUnified (v + 1) rest).get ⟨n, hn⟩ := by
        intro hj hn
        simp [dictifyUnified, he]
      rw [hget hi (by simpa [dictifyUnified, he] using hi)]
      refine ⟨?_, ?_, ?_⟩
      · rw [hrec.1]; congr 1; push_cast; ring
      · rw [hrec.2.1]; congr 1; push_cast; ring
      · rw [hrec.2.2]; congr 1; push_cast; ring

/-- C6: under the unified policy, with no explicit overrides, the entry
at 0-based position i receives `req_value = rsp_value = i`, and the
combined `value` field equals i as well. -/
theorem c6_unified_sequential (entries : List OpEntry) (h : ∀ e ∈ entries, e.value = none)
    (i : Nat) (hi : i < (dictifyUnified 0 entries).length) :
    ((dictifyUnified 0 entries).get ⟨i, hi⟩).req_value = some (i : Int)
    ∧ ((dictifyUnified 0 entries).get ⟨i, hi⟩).rsp_value = some (i : Int)
    ∧ ((dictifyUnified 0 entries).get ⟨i, hi⟩).value = some (i : Int) := by
  have hres := dictifyUnified_get entries 0 i hi h
  simpa using hres

/-- Witness for C6: the second entry of a concrete two-entry list gets
request, response and combined value 1. -/
theorem c6_unified_sequential_witness :
    ((dictifyUnified 0 [opEntryDoOnly, opEntryC]).get ⟨1, by decide⟩).req_value = some 1
    ∧ ((dictifyUnified 0 [opEntryDoOnly, opEntryC]).get ⟨1, by decide⟩).rsp_value = some 1
    ∧ ((dictifyUnified 0 [opEntryDoOnly, opEntryC]).get ⟨1, by decide⟩).value = some 1 := by
  have h := c6_unified_sequential [opEntryDoOnly, opEntryC] (by decide) 1 (by decide)
  simpa using h

/-! ## Engine lemmas -/

/-- Queues containing no family element. -/
def NoFam (q : List Elem) : Prop := ∀ e ∈ q, e.isFam = false

/-- Attribute-set and attribute elements (whose `resolve` is the
inherited no-op). -/
def isAttrish : Elem → Bool
  | .attrSetElem _ => true
  | .attrElem _ => true
  | _ => false

theorem resolveElem_nonfam (e : Elem) (st : FamilyState) (h : e.isFam = false)
    (st' : FamilyState) (kids : List Elem) (hr : resolveElem e st = .ok (st', kids)) :
    kids = [] ∧ st'.attr_sets = st.attr_sets ∧ st'.msgs = st.msgs
      ∧ st'.req_by_value = st.req_by_value ∧ st'.rsp_by_value = st.rsp_by_value
      ∧ st'.ops = st.ops := by
  cases e with
  | fam d => simp [Elem.isFam] at h
  | attrSetElem a =>
    simp only [resolveElem, Except.ok.injEq, Prod.mk.injEq] at hr
    obtain ⟨h1, h2⟩ := hr
    subst h1; subst h2
    simp
  | attrElem a =>
    simp only [resolveElem, Except.ok.injEq, Prod.mk.injEq] at hr
    obtain ⟨h1, h2⟩ := hr
    subst h1; subst h2
    simp
  | opElem op =>
    cases hres : resolveOpAttr op st with
    | error err => simp [resolveElem, hres] at hr
    | ok oa =>
      cases oa with
      | none =>
        simp only [resolveElem, hres, Except.ok.injEq, Prod.mk.injEq] at hr
        obtain ⟨h1, h2⟩ := hr
        subst h1; subst h2
        simp
      | some a =>
        simp only [resolveElem, hres, Except.ok.injEq, Prod.mk.injEq] at hr
        obtain ⟨h1, h2⟩ := hr
        subst h1; subst h2
        simp

theorem runPass_progress (q : List Elem) (st : FamilyState) (nq : List Elem) (n : Nat)
    (le : Option String) (st' : FamilyState) (nq' : List Elem) (n' : Nat) (le' : Option String)
    (hq : NoFam q) (hnq : NoFam nq)
    (hr : runPass q st nq n le = .ok (st', nq', n', le')) :
    NoFam nq' ∧ nq'.length + n' = nq.length + n + q.length := by
  induction q generalizing st nq n le with
  | nil =>
    simp only [runPass, Except.ok.injEq, Prod.mk.injEq] at hr
    obtain ⟨h1, h2, h3, h4⟩ := hr
    subst h2; subst h3
    exact ⟨hnq, by simp⟩
  | cons e rest ih =>
    have he : e.isFam = false := hq e (by simp)
    have hrest : NoFam rest := fun x hx => hq x (by simp [hx])
    cases hres : resolveElem e st with
    | ok pair =>
      obtain ⟨st2, kids⟩ := pair
      have hk := resolveElem_nonfam e st he st2 kids hres
      rw [runPass, hres] at hr
      rw [hk.1] at hr
      simp only [List.append_nil] at hr
      have := ih st2 nq (n + 1) le hrest hnq hr
      exact ⟨this.1, by have := this.2; simp at this ⊢; omega⟩
    | error err =>
      cases err with
      | deferred m =>
        rw [runPass, hres] at hr
        have hnq2 : NoFam (nq ++ [e]) := by
          intro x hx
          rcases List.mem_append.mp hx with h1 | h1
          · exact hnq x h1
          · simp at h1; subst h1; exact he
        have := ih st (nq ++ [e]) n (some m) hrest hnq2 hr
        refine ⟨this.1, ?_⟩
        have h2 := this.2
        simp at h2 ⊢
        omega
      | fatal m => rw [runPass, hres] at hr; simp at hr

theorem runPass_preserve (q : List Elem) (st : FamilyState) (nq : List Elem) (n : Nat)
    (le : Option String) (st' : FamilyState) (nq' : List Elem) (n' : Nat) (le' : Option String)
    (hq : NoFam q) (hr : runPass q st nq n le = .ok (st', nq', n', le')) :
    st'.attr_sets = st.attr_sets ∧ st'.msgs = st.msgs ∧ st'.req_by_value = st.req_by_value
      ∧ st'.rsp_by_value = st.rsp_by_value ∧ st'.ops = st.ops := by
  induction q generalizing st nq n le with
  | nil =>
    simp only [runPass, Except.ok.injEq, Prod.mk.injEq] at hr
    obtain ⟨h1, h2, h3, h4⟩ := hr
    subst h1
    exact ⟨rfl, rfl, rfl, rfl, rfl⟩
  | cons e rest ih =>
    have he : e.isFam = false := hq e (by simp)
    have hrest : NoFam rest := fun x hx => hq x (by simp [hx])
    cases hres : resolveElem e st with
    | ok pair =>
      obtain ⟨st2, kids⟩ := pair
      have hk := resolveElem_nonfam e st he st2 kids hres
      rw [runPass, hres] at hr
      have := ih st2 (nq ++ kids) (n + 1) le hrest hr
      obtain ⟨p1, p2, p3, p4, p5⟩ := this
      obtain ⟨_, q1, q2, q3, q4, q5⟩ := hk
      exact ⟨p1.trans q1, p2.trans q2, p3.trans q3, p4.trans q4, p5.trans q5⟩
    | error err =>
      cases err with
      | deferred m =>
        rw [runPass, hres] at hr
        exact ih st (nq ++ [e]) n (some m) hrest hr
      | fatal m => rw [runPass, hres] at hr; simp at hr

theorem runLoop_fuel_sufficient (fuel : Nat) (q : List Elem) (st : FamilyState)
    (le : Option String) (hq : NoFam q) (hlen : q.length ≤ fuel) :
    runLoop fuel q st le ≠ .outOfFuel := by
  induction fuel generalizing q st le with
  | zero =>
    have : q = [] := List.length_eq_zero.mp (Nat.le_zero.mp hlen)
    subst this
    simp [runLoop]
  | succ f ih =>
    cases q with
    | nil => simp [runLoop]
    | cons e rest =>
      rw [runLoop]
      cases hp : runPass (e :: rest) st [] 0 le with
      | error m => simp
      | ok res =>
        obtain ⟨st', nq, n, le'⟩ := res
        have hprog := runPass_progress (e :: rest) st [] 0 le st' nq n le' hq
          (by intro x hx; simp at hx) hp
        by_cases hn : n = 0
        · simp [hn]
        · simp only [hn, if_false]
          apply ih nq st' le' hprog.1
          have h2 : nq.length + n = rest.length + 1 := by simpa using hprog.2
          have hlen2 : rest.length + 1 ≤ f + 1 := by simpa using hlen
          omega

theorem runLoop_fuel_stable (fuel k : Nat) (q : List Elem) (st : FamilyState)
    (le : Option String) (h : runLoop fuel q st le ≠ .outOfFuel) :
    runLoop (fuel + k) q st le = runLoop fuel q st le := by
  induction fuel generalizing q st le with
  | zero =>
    cases q with
    | nil => cases k <;> simp [runLoop]
    | cons e rest => simp [runLoop] at h
  | succ f ih =>
    cases q with
    | nil => cases k <;> simp [runLoop]
    | cons e rest =>
      have hshift : f + 1 + k = (f + k) + 1 := by omega
      rw [hshift, runLoop, runLoop]
      rw [runLoop] at h
      cases hp : runPass (e :: rest) st [] 0 le with
      | error m => simp
      | ok res =>
        obtain ⟨st', nq, n, le'⟩ := res
        rw [hp] at h
        by_cases hn : n = 0
        · simp [hn]
        · simp only [hn, if_false] at h ⊢
          exact ih nq st' le' h

theorem attrChildren_nofam (l : List AttrSetDecl) : NoFam (attrChildren l) := by
  induction l with
  | nil => intro x hx; simp [attrChildren] at hx
  | cons a rest ih =>
    intro x hx
    simp only [attrChildren, List.mem_cons, List.mem_append] at hx
    rcases hx with h | h | h
    · subst h; rfl
    · obtain ⟨y, _, rfl⟩ := List.mem_map.mp h; rfl
    · exact ih x h

theorem attrChildren_attrish (l : List AttrSetDecl) :
    ∀ e ∈ attrChildren l, isAttrish e = true := by
  induction l with
  | nil => intro x hx; simp [attrChildren] at hx
  | cons a rest ih =>
    intro x hx
    simp only [attrChildren, List.mem_cons, List.mem_append] at hx
    rcases hx with h | h | h
    · subst h; rfl
    · obtain ⟨y, _, rfl⟩ := List.mem_map.mp h; rfl
    · exact ih x h

theorem foldl_count_acc (l : List AttrSetDecl) (n : Nat) :
    l.foldl (fun n a => n + 1 + a.attributes.length) n
      = n + l.foldl (fun n a => n + 1 + a.attributes.length) 0 := by
  induction l generalizing n with
  | nil => simp
  | cons a rest ih =>
    simp only [List.foldl_cons]
    rw [ih (n + 1 + a.attributes.length), ih (0 + 1 + a.attributes.length)]
    omega

theorem attrChildren_length (l : List AttrSetDecl) :
    (attrChildren l).length = l.foldl (fun n a => n + 1 + a.attributes.length) 0 := by
  induction l with
  | nil => rfl
  | cons a rest ih =>
    simp only [attrChildren, List.length_cons, List.length_append, List.length_map, ih,
      List.foldl_cons]
    rw [foldl_count_acc rest (0 + 1 + a.attributes.length)]
    omega

theorem numElems_eq (d : SpecDoc) :
    numElems d = 1 + (attrChildren d.attribute_sets).length + d.operations.list.length := by
  rw [numElems, attrChildren_length]

theorem dictifyUnified_length (l : List OpEntry) (v : Int) :
    (dictifyUnified v l).length = l.length := by
  induction l generalizing v with
  | nil => rfl
  | cons e rest ih => cases he : e.value <;> simp [dictifyUnified, he, ih]

theorem dictifyDirectional_length (l : List OpEntry) (r s : Int) (ops : List SpecOperation)
    (h : dictifyDirectional r s l = .ok ops) : ops.length = l.length := by
  induction l generalizing r s ops with
  | nil =>
    simp only [dictifyDirectional, Except.ok.injEq] at h
    subst h; rfl
  | cons e rest ih =>
    simp only [dictifyDirectional] at h
    split at h
    · split at h
      · simp at h
      · rename_i l' heq
        simp only [Except.ok.injEq] at h
        subst h
        simp [ih _ _ _ heq]
    · split at h
      · split at h
        · simp at h
        · rename_i l' heq
          simp only [Except.ok.injEq] at h
          subst h
          simp [ih _ _ _ heq]
      · simp at h

theorem nofam_opmap (l : List SpecOperation) : NoFam (l.map Elem.opElem) := by
  intro x hx
  obtain ⟨y, _, rfl⟩ := List.mem_map.mp hx
  rfl

theorem resolveFam_ok (d : SpecDoc) (st st' : FamilyState) (kids : List Elem)
    (h : resolveFam d st = .ok (st', kids)) :
    NoFam kids
      ∧ kids.length ≤ (attrChildren d.attribute_sets).length + d.operations.list.length := by
  simp only [resolveFam] at h
  split at h
  · simp at h
  · rename_i opList heq
    simp only [Except.ok.injEq, Prod.mk.injEq] at h
    have hkids : kids = attrChildren d.attribute_sets ++ opList.map Elem.opElem := h.2.symm
    subst hkids
    have hnf : NoFam (attrChildren d.attribute_sets ++ opList.map Elem.opElem) := by
      intro x hx
      rcases List.mem_append.mp hx with h1 | h1
      · exact attrChildren_nofam d.attribute_sets x h1
      · exact nofam_opmap opList x h1
    refine ⟨hnf, ?_⟩
    simp only [List.length_append, List.length_map]
    have hlen : opList.length ≤ d.operations.list.length := by
      split at heq
      · simp only [Except.ok.injEq] at heq
        subst heq
        rw [dictifyUnified_length]
      · split at heq
        · split at heq
          · rename_i l' hrec
            simp only [Except.ok.injEq] at heq
            subst heq
            rw [dictifyDirectional_length _ _ _ _ hrec]
          · simp at heq
        · simp only [Except.ok.injEq] at heq
          subst heq
          simp
    omega

/-- C1: the resolution engine terminates on every input document — with
fuel equal to the total element count the bounded model never runs out of
fuel (each productive pass permanently removes at least one element, a
zero-progress pass aborts as stuck, and a fatal error aborts), and giving
the loop any more fuel does not change the outcome, so `loadFamily` is
the loop's fixed result: success exactly when a pass finds the queue
empty, within a pass count bounded by the number of elements. -/
theorem c1_engine_terminates (d : SpecDoc) (k : Nat) :
    loadFamily d ≠ .outOfFuel
    ∧ runLoop (numElems d + k) [Elem.fam d] (initState d) none = loadFamily d := by
  have hN : numElems d
      = ((attrChildren d.attribute_sets).length + d.operations.list.length) + 1 := by
    rw [numElems_eq]; omega
  have hne : runLoop (numElems d) [Elem.fam d] (initState d) none ≠ .outOfFuel := by
    cases hres : resolveFam d (initState d) with
    | error err =>
      cases err with
      | deferred m =>
        have hp : runPass [Elem.fam d] (initState d) [] 0 none
            = .ok (initState d, [Elem.fam d], 0, some m) := by
          simp [runPass, resolveElem, hres]
        rw [hN, runLoop, hp]
        simp
      | fatal m =>
        have hp : runPass [Elem.fam d] (initState d) [] 0 none = .error m := by
          simp [runPass, resolveElem, hres]
        rw [hN, runLoop, hp]
        simp
    | ok pair =>
      obtain ⟨st2, kids⟩ := pair
      have hp : runPass [Elem.fam d] (initState d) [] 0 none = .ok (st2, kids, 1, none) := by
        simp [runPass, resolveElem, hres]
      have hstep : runLoop (numElems d) [Elem.fam d] (initState d) none
          = runLoop ((attrChildren d.attribute_sets).length + d.operations.list.length)
              kids st2 none := by
        rw [hN, runLoop, hp]
        simp
      rw [hstep]
      obtain ⟨hnf, hlen⟩ := resolveFam_ok d _ _ _ hres
      exact runLoop_fuel_sufficient _ kids st2 none hnf hlen
  constructor
  · rw [loadFamily]
    exact hne
  · rw [loadFamily]
    exact runLoop_fuel_stable (numElems d) k _ _ _ hne

theorem runPass_append (xs ys : List Elem) (st : FamilyState) (nq : List Elem) (n : Nat)
    (le : Option String) :
    runPass (xs ++ ys) st nq n le
      = match runPass xs st nq n le with
        | .ok (st', nq', n', le') => runPass ys st' nq' n' le'
        | .error m => .error m := by
  induction xs generalizing st nq n le with
  | nil => simp [runPass]
  | cons e rest ih =>
    cases hres : resolveElem e st with
    | ok pair =>
      obtain ⟨st2, kids⟩ := pair
      simp only [List.cons_append, runPass, hres]
      exact ih st2 (nq ++ kids) (n + 1) le
    | error err =>
      cases err with
      | deferred m =>
        simp only [List.cons_append, runPass, hres]
        exact ih st (nq ++ [e]) n (some m)
      | fatal m => simp [runPass, hres]

theorem resolveOpAttr_fatal (op : SpecOperation) (st : FamilyState)
    (h1 : op.yaml.attribute_set = none) (h2 : op.yaml.notify = none)
    (h3 : op.is_resv = false) :
    resolveOpAttr op st
      = .error (.fatal ("Can not resolve attribute set for op " ++ op.name)) := by
  simp [resolveOpAttr, h1, h2, h3]

/-- C9: an operation whose attribute set is determined by none of the
three rules (no explicit `attribute-set`, no `notify`, not reserved)
fails with a plain exception, which the engine does not catch: whatever
the pass had done so far, the whole load aborts fatally with that
message (the element is not re-queued and no model state is returned). -/
theorem c9_unresolvable_attr_set_fatal (op : SpecOperation) (st st1 : FamilyState)
    (pre post nq : List Elem) (n : Nat) (le le1 : Option String) (fuel : Nat)
    (h1 : op.yaml.attribute_set = none) (h2 : op.yaml.notify = none)
    (h3 : op.is_resv = false)
    (hpre : runPass pre st [] 0 le = .ok (st1, nq, n, le1)) :
    runLoop (fuel + 1) (pre ++ Elem.opElem op :: post) st le
      = .fatal ("Can not resolve attribute set for op " ++ op.name) := by
  have hq : ∃ x xs, pre ++ Elem.opElem op :: post = x :: xs := by
    cases pre with
    | nil => exact ⟨_, _, rfl⟩
    | cons a as => exact ⟨_, _, rfl⟩
  obtain ⟨x, xs, hxx⟩ := hq
  rw [hxx, runLoop, ← hxx, runPass_append, hpre]
  have hop : runPass (Elem.opElem op :: post) st1 nq n le1
      = .error ("Can not resolve attribute set for op " ++ op.name) := by
    rw [runPass]
    have : resolveElem (Elem.opElem op) st1
        = .error (.fatal ("Can not resolve attribute set for op " ++ op.name)) := by
      simp [resolveElem, resolveOpAttr_fatal op st1 h1 h2 h3]
    rw [this]
  simp only [hop]

/-- Event-only operation entry with no attribute set — the shape that
makes `SpecOperation.resolve` raise. -/
def opEntryEvent : OpEntry :=
  { name := "e", value := none, do_mode := none, dump_mode := none,
    notify := none, event := true, attribute_set := none }

/-- Empty document, used to build a family state for the C9 witness. -/
def emptyDoc : SpecDoc :=
  { protocol := none, attribute_sets := [],
    operations := { enum_model := none, list := [] } }

/-- Witness for C9: a queue holding only the event-only operation aborts
the load fatally with the operation's name in the message. -/
theorem c9_unresolvable_attr_set_fatal_witness :
    runLoop 1 [Elem.opElem (mkSpecOperation opEntryEvent none none)] (initState emptyDoc) none
      = .fatal ("Can not resolve attribute set for op "
          ++ (mkSpecOperation opEntryEvent none none).name) :=
  c9_unresolvable_attr_set_fatal (mkSpecOperation opEntryEvent none none)
    (initState emptyDoc) (initState emptyDoc) [] [] [] 0 none none 0 rfl rfl rfl rfl

theorem runPass_attrish (q : List Elem) (st : FamilyState) (nq : List Elem) (n : Nat)
    (le : Option String) (h : ∀ e ∈ q, isAttrish e = true) :
    runPass q st nq n le = .ok (st, nq, n + q.length, le) := by
  induction q generalizing nq n with
  | nil => simp [runPass]
  | cons e rest ih =>
    have he : isAttrish e = true := h e (by simp)
    have hres : resolveElem e st = .ok (st, []) := by
      cases e with
      | fam d => simp [isAttrish] at he
      | opElem op => simp [isAttrish] at he
      | attrSetElem a => rfl
      | attrElem a => rfl
    have harith : n + 1 + rest.length = n + (e :: rest).length := by simp; omega
    rw [runPass, hres]
    show runPass rest st (nq ++ []) (n + 1) le = Except.ok (st, nq, n + (e :: rest).length, le)
    rw [List.append_nil, ih nq (n + 1) (fun x hx => h x (by simp [hx])), harith]

theorem resolveFam_other_model (d : SpecDoc) (m : String)
    (h1 : d.operations.enum_model = some m) (h2 : m ≠ "unified") (h3 : m ≠ "directional") :
    ∃ st', resolveFam d (initState d) = .ok (st', attrChildren d.attribute_sets)
      ∧ st'.msgs = [] ∧ st'.req_by_value = [] ∧ st'.rsp_by_value = []
      ∧ st'.ops = [] := by
  refine ⟨{ proto := d.protocol.getD "genetlink",
            attr_sets := d.attribute_sets.foldl
              (fun acc a => dictInsert a.name (mkSpecAttrSet a) acc) [],
            msgs := [], req_by_value := [], rsp_by_value := [], ops := [],
            attr_set_of := [] },
          ?_, rfl, rfl, rfl, rfl⟩
  simp [resolveFam, initState, h1, h2, h3, msgsOf, reqDictOf, rspDictOf, opsDictOf]

/-- C10: a document whose operations block declares an `enum-model`
selector that is neither "unified" nor "directional" resolves without
any error, and the resulting model's full operation catalog, request-id
mapping, response-id mapping and valid-operations catalog are all
empty — the selector is silently ignored. -/
theorem c10_unknown_enum_model (d : SpecDoc) (m : String)
    (h1 : d.operations.enum_model = some m) (h2 : m ≠ "unified") (h3 : m ≠ "directional") :
    ∃ st, loadFamily d = .success st ∧ st.msgs = [] ∧ st.req_by_value = []
      ∧ st.rsp_by_value = [] ∧ st.ops = [] := by
  obtain ⟨st1, hres, hm, hreq, hrsp, hops⟩ := resolveFam_other_model d m h1 h2 h3
  refine ⟨st1, ?_, hm, hreq, hrsp, hops⟩
  have hN : numElems d
      = ((attrChildren d.attribute_sets).length + d.operations.list.length) + 1 := by
    rw [numElems_eq]; omega
  have hp : runPass [Elem.fam d] (initState d) [] 0 none
      = .ok (st1, attrChildren d.attribute_sets, 1, none) := by
    simp [runPass, resolveElem, hres]
  rw [loadFamily, hN, runLoop, hp]
  show (if 1 = 0 then LoadResult.stuck none
      else runLoop ((attrChildren d.attribute_sets).length + d.operations.list.length)
        (attrChildren d.attribute_sets) st1 none)
    = LoadResult.success st1
  rw [if_neg (by norm_num)]
  cases hac : attrChildren d.attribute_sets with
  | nil => simp [runLoop]
  | cons x xs =>
    have harith : (x :: xs).length + d.operations.list.length
        = (xs.length + d.operations.list.length) + 1 := by simp; omega
    rw [harith, runLoop]
    have hp2 : runPass (x :: xs) st1 [] 0 none = .ok (st1, [], 0 + (x :: xs).length, none) :=
      runPass_attrish (x :: xs) st1 [] 0 none
        (by rw [← hac]; exact attrChildren_attrish d.attribute_sets)
    rw [hp2]
    show (if 0 + (x :: xs).length = 0 then LoadResult.stuck none
        else runLoop (xs.length + d.operations.list.length) [] st1 none)
      = LoadResult.success st1
    rw [if_neg (by simp)]
    simp [runLoop]

/-- Concrete document with an unrecognized `enum-model`, a non-empty
attribute-set list and a non-empty operation list, for the C10 witness. -/
def unknownModelDoc : SpecDoc :=
  { protocol := none, attribute_sets := [attrSetDeclW],
    operations := { enum_model := some "weird", list := [opEntryDoOnly] } }

/-- Witness for C10: the concrete document with `enum-model: weird` loads
successfully with all four operation catalogs empty. -/
theorem c10_unknown_enum_model_witness :
    ∃ st, loadFamily unknownModelDoc = .success st ∧ st.msgs = [] ∧ st.req_by_value = []
      ∧ st.rsp_by_value = [] ∧ st.ops = [] :=
  c10_unknown_enum_model unknownModelDoc "weird" rfl (by decide) (by decide)

/-! ## C3: notification attribute-set resolution -/

theorem dictifyUnified_names (l : List OpEntry) (v : Int) :
    (dictifyUnified v l).map (fun op => op.name) = l.map (fun e => e.name) := by
  induction l generalizing v with
  | nil => rfl
  | cons e rest ih => cases he : e.value <;> simp [dictifyUnified, he, mkSpecOperation, ih]

theorem msgsOf_nodup_keys (opsl : List SpecOperation) (acc : List (String × SpecOperation))
    (h : (acc.map Prod.fst ++ opsl.map (fun op => op.name)).Nodup) :
    msgsOf acc opsl = acc ++ opsl.map (fun op => (op.name, op)) := by
  induction opsl generalizing acc with
  | nil => simp [msgsOf]
  | cons op rest ih =>
    have hdisj := (List.nodup_append.mp h).2.2
    have hx : op.name ∉ acc.map Prod.fst := by
      intro hmem
      exact hdisj hmem (by simp)
    rw [msgsOf, dictInsert_of_not_mem_keys op hx,
      ih (acc ++ [(op.name, op)]) (by simpa [List.append_assoc] using h)]
    simp

theorem dictifyUnified_yaml (l : List OpEntry) (v : Int) :
    (dictifyUnified v l).map (fun op => op.yaml) = l := by
  induction l generalizing v with
  | nil => rfl
  | cons e rest ih => cases he : e.value <;> simp [dictifyUnified, he, mkSpecOperation, ih]

theorem dictifyDirectional_yaml (l : List OpEntry) (r s : Int) (ops : List SpecOperation)
    (h : dictifyDirectional r s l = .ok ops) :
    ops.map (fun op => op.yaml) = l := by
  induction l generalizing r s ops with
  | nil =>
    simp only [dictifyDirectional, Except.ok.injEq] at h
    subst h; rfl
  | cons e rest ih =>
    simp only [dictifyDirectional] at h
    split at h
    · split at h
      · simp at h
      · rename_i l' heq
        simp only [Except.ok.injEq] at h
        subst h
        simp [mkSpecOperation, ih _ _ _ heq]
    · split at h
      · split at h
        · simp at h
        · rename_i l' heq
          simp only [Except.ok.injEq] at h
          subst h
          simp [mkSpecOperation, ih _ _ _ heq]
      · simp at h

theorem dictifyUnified_mem (v : Int) (l : List OpEntry) (o : SpecOperation)
    (h : o ∈ dictifyUnified v l) : ∃ e rv sv, o = mkSpecOperation e rv sv := by
  induction l generalizing v with
  | nil => simp [dictifyUnified] at h
  | cons e rest ih =>
    cases he : e.value <;> (
      simp only [dictifyUnified, he, List.mem_cons] at h
      rcases h with h1 | h1
      · exact ⟨_, _, _, h1⟩
      · exact ih _ h1)

theorem dictifyDirectional_mem (l : List OpEntry) (r s : Int) (ops : List SpecOperation)
    (h : dictifyDirectional r s l = .ok ops) (o : SpecOperation) (ho : o ∈ ops) :
    ∃ e rv sv, o = mkSpecOperation e rv sv := by
  induction l generalizing r s ops with
  | nil =>
    simp only [dictifyDirectional, Except.ok.injEq] at h
    subst h; simp at ho
  | cons e rest ih =>
    simp only [dictifyDirectional] at h
    split at h
    · split at h
      · simp at h
      · rename_i l' heq
        simp only [Except.ok.injEq] at h
        subst h
        rcases List.mem_cons.mp ho with h1 | h1
        · exact ⟨_, _, _, h1⟩
        · exact ih _ _ _ heq h1
    · split at h
      · split at h
        · simp at h
        · rename_i l' heq
          simp only [Except.ok.injEq] at h
          subst h
          rcases List.mem_cons.mp ho with h1 | h1
          · exact ⟨_, _, _, h1⟩
          · exact ih _ _ _ heq h1
      · simp at h

theorem pairs_lookup_yaml (l1 : List OpEntry) (opsl : List SpecOperation)
    (l2 : List OpEntry) (e : OpEntry)
    (hy : opsl.map (fun op => op.yaml) = l1 ++ e :: l2)
    (hnm : ∀ op ∈ opsl, op.name = op.yaml.name)
    (hnd : ((l1 ++ e :: l2).map (fun x => x.name)).Nodup) :
    ∃ m, dictLookup e.name (opsl.map (fun op => (op.name, op))) = some m ∧ m.yaml = e := by
  induction l1 generalizing opsl with
  | nil =>
    cases opsl with
    | nil => simp at hy
    | cons o rest =>
      simp only [List.map_cons, List.nil_append, List.cons.injEq] at hy
      have hname : e.name = o.name := by rw [hnm o (by simp), hy.1]
      refine ⟨o, ?_, hy.1⟩
      rw [List.map_cons, dictLookup, if_pos hname]
  | cons x l1' ih =>
    cases opsl with
    | nil => simp at hy
    | cons o rest =>
      simp only [List.map_cons, List.cons_append, List.cons.injEq] at hy
      have hne : e.name ≠ o.name := by
        rw [hnm o (by simp), hy.1]
        simp only [List.cons_append, List.map_cons, List.nodup_cons] at hnd
        intro heq
        exact hnd.1 (heq ▸ (by simp : e.name ∈ (l1' ++ e :: l2).map (fun y => y.name)))
      have htail : ((l1' ++ e :: l2).map (fun y => y.name)).Nodup := by
        simp only [List.cons_append, List.map_cons, List.nodup_cons] at hnd
        exact hnd.2
      rw [List.map_cons, dictLookup, if_neg hne]
      exact ih rest hy.2 (fun op hop => hnm op (by simp [hop])) htail

theorem msgsOf_lookup_yaml (opsl : List SpecOperation) (l1 l2 : List OpEntry) (e : OpEntry)
    (hy : opsl.map (fun op => op.yaml) = l1 ++ e :: l2)
    (hnm : ∀ op ∈ opsl, op.name = op.yaml.name)
    (hnd : ((l1 ++ e :: l2).map (fun x => x.name)).Nodup) :
    ∃ m, dictLookup e.name (msgsOf [] opsl) = some m ∧ m.yaml = e := by
  have hnames : opsl.map (fun op => op.name) = (l1 ++ e :: l2).map (fun x => x.name) := by
    rw [← hy, List.map_map]
    exact List.map_congr_left hnm
  rw [msgsOf_nodup_keys opsl [] (by simpa [hnames] using hnd)]
  simpa using pairs_lookup_yaml l1 opsl l2 e hy hnm hnd

/-- C3: (i) an operation entry with no explicit attribute-set that is a
notification of another named operation resolves its attribute set by
looking the referenced operation up in the family's operation mapping,
borrowing the attribute-set *name* from its declaration and re-resolving
that name in the family's attribute-set mapping; (ii) under the unified
policy and (iii) under the directional policy alike, wherever the
referenced entry sits in the operation list (before or after the
notification, given distinct names) the family's operation mapping binds
its name to an operation carrying exactly its declaration — so the
borrowed name, and with it the resolved attribute set, is independent of
declaration order under either policy. -/
theorem c3_notification_attr_set :
    (∀ (op : SpecOperation) (st : FamilyState) (t : String) (m : SpecOperation)
        (s : String) (a : SpecAttrSet),
      op.yaml.attribute_set = none → op.yaml.notify = some t →
      dictLookup t st.msgs = some m → m.yaml.attribute_set = some s → s ≠ "" →
      dictLookup s st.attr_sets = some a → resolveOpAttr op st = .ok (some a))
    ∧ (∀ (v0 : Int) (l1 l2 : List OpEntry) (e : OpEntry),
      ((l1 ++ e :: l2).map (fun x => x.name)).Nodup →
      ∃ m, dictLookup e.name (msgsOf [] (dictifyUnified v0 (l1 ++ e :: l2))) = some m
        ∧ m.yaml = e)
    ∧ (∀ (r0 s0 : Int) (l1 l2 : List OpEntry) (e : OpEntry) (ops : List SpecOperation),
      dictifyDirectional r0 s0 (l1 ++ e :: l2) = .ok ops →
      ((l1 ++ e :: l2).map (fun x => x.name)).Nodup →
      ∃ m, dictLookup e.name (msgsOf [] ops) = some m ∧ m.yaml = e) := by
  refine ⟨?_, ?_, ?_⟩
  · intro op st t m s a h1 h2 h3 h4 h5 h6
    simp [resolveOpAttr, h1, h2, h3, h4, h5, h6]
  · intro v0 l1 l2 e h
    exact msgsOf_lookup_yaml _ l1 l2 e (dictifyUnified_yaml _ v0)
      (fun op hop => by
        obtain ⟨e', rv, sv, rfl⟩ := dictifyUnified_mem v0 _ op hop
        rfl) h
  · intro r0 s0 l1 l2 e ops hok h
    exact msgsOf_lookup_yaml _ l1 l2 e (dictifyDirectional_yaml _ r0 s0 ops hok)
      (fun op hop => by
        obtain ⟨e', rv, sv, rfl⟩ := dictifyDirectional_mem _ r0 s0 ops hok op hop
        rfl) h

/-- Target operation entry named "t" declaring attribute-set "s", for the
C3 witness. -/
def opEntryTgt : OpEntry :=
  { name := "t", value := none, do_mode := some { request := none, reply := some none },
    dump_mode := none, notify := none, event := false, attribute_set := some "s" }

/-- Notification entry referencing operation "t", with no attribute-set
of its own, for the C3 witness. -/
def opEntryNotifyT : OpEntry :=
  { name := "n", value := none, do_mode := none, dump_mode := none,
    notify := some "t", event := false, attribute_set := none }

/-- Family state whose operation mapping binds "t" and whose
attribute-set mapping binds "s", for the C3 witness. -/
def c3StateW : FamilyState :=
  { proto := "genetlink",
    attr_sets := [("s", mkSpecAttrSet attrSetDeclW)],
    msgs := [("t", mkSpecOperation opEntryTgt (some 0) (some 0))],
    req_by_value := [], rsp_by_value := [], ops := [], attr_set_of := [] }

/-- Witness for C3: the concrete notification resolves to the attribute
set "s" borrowed from "t"; with "t" declared after another entry the
unified operation mapping still binds "t" to its own declaration; and
under the directional policy, with "t" declared after the notification
itself, the mapping again binds "t" to its declaration. -/
theorem c3_notification_attr_set_witness :
    resolveOpAttr (mkSpecOperation opEntryNotifyT none (some 0)) c3StateW
        = .ok (some (mkSpecAttrSet attrSetDeclW))
    ∧ (∃ m, dictLookup opEntryTgt.name
          (msgsOf [] (dictifyUnified 0 ([opEntryDoOnly] ++ opEntryTgt :: []))) = some m
        ∧ m.yaml = opEntryTgt)
    ∧ (∃ m, dictLookup opEntryTgt.name
          (msgsOf [] [mkSpecOperation opEntryNotifyT none (some 0),
                      mkSpecOperation opEntryTgt (some 0) (some 1)]) = some m
        ∧ m.yaml = opEntryTgt) :=
  ⟨c3_notification_attr_set.1 (mkSpecOperation opEntryNotifyT none (some 0)) c3StateW
      "t" (mkSpecOperation opEntryTgt (some 0) (some 0)) "s" (mkSpecAttrSet attrSetDeclW)
      rfl rfl rfl rfl (by decide) rfl,
   c3_notification_attr_set.2.1 0 [opEntryDoOnly] [] opEntryTgt (by decide),
   c3_notification_attr_set.2.2 0 0 [opEntryNotifyT] [] opEntryTgt
     [mkSpecOperation opEntryNotifyT none (some 0),
      mkSpecOperation opEntryTgt (some 0) (some 1)] rfl (by decide)⟩

/-! ## C8: reserved operations and the valid-operations catalog -/

theorem mem_dictInsert {α β : Type} [DecidableEq α] {p : α × β} {k : α} {v : β}
    {l : List (α × β)} (h : p ∈ dictInsert k v l) : p = (k, v) ∨ p ∈ l := by
  induction l with
  | nil => simp [dictInsert] at h; exact Or.inl h
  | cons q rest ih =>
    obtain ⟨k', v'⟩ := q
    by_cases h2 : k = k'
    · simp only [dictInsert, h2, if_true] at h
      rcases List.mem_cons.mp h with h3 | h3
      · exact Or.inl (by simp [h3, h2])
      · exact Or.inr (by simp [h3])
    · simp only [dictInsert, h2, if_false] at h
      rcases List.mem_cons.mp h with h3 | h3
      · exact Or.inr (by simp [h3])
      · rcases ih h3 with h4 | h4
        · exact Or.inl h4
        · exact Or.inr (by simp [h4])

theorem dictInsert_keys_nodup {α β : Type} [DecidableEq α] {k : α} {v : β}
    {l : List (α × β)} (h : (l.map Prod.fst).Nodup) :
    ((dictInsert k v l).map Prod.fst).Nodup := by
  induction l with
  | nil => simp [dictInsert]
  | cons q rest ih =>
    obtain ⟨k', v'⟩ := q
    simp only [List.map_cons, List.nodup_cons] at h
    by_cases h2 : k = k'
    · subst h2
      simpa [dictInsert] using h
    · simp only [dictInsert, h2, if_false, List.map_cons, List.nodup_cons]
      refine ⟨?_, ih h.2⟩
      intro hmem
      rcases keys_dictInsert hmem with h3 | h3
      · exact h2 h3.symm
      · exact h.1 h3

theorem msgsOf_keys_inv (opsl : List SpecOperation) (acc : List (String × SpecOperation))
    (h1 : (acc.map Prod.fst).Nodup) (h2 : ∀ p ∈ acc, p.2.name = p.1) :
    ((msgsOf acc opsl).map Prod.fst).Nodup ∧ ∀ p ∈ msgsOf acc opsl, p.2.name = p.1 := by
  induction opsl generalizing acc with
  | nil => exact ⟨h1, h2⟩
  | cons op rest ih =>
    rw [msgsOf]
    apply ih
    · exact dictInsert_keys_nodup h1
    · intro p hp
      rcases mem_dictInsert hp with h3 | h3
      · subst h3; rfl
      · exact h2 p h3

theorem msgsOf_val_mem (opsl : List SpecOperation) (acc : List (String × SpecOperation)) :
    ∀ p ∈ msgsOf acc opsl, p.2 ∈ acc.map Prod.snd ∨ p.2 ∈ opsl := by
  induction opsl generalizing acc with
  | nil => intro p hp; exact Or.inl (List.mem_map_of_mem _ hp)
  | cons op rest ih =>
    intro p hp
    rw [msgsOf] at hp
    rcases ih (dictInsert op.name op acc) p hp with h3 | h3
    · obtain ⟨q, hq, hq2⟩ := List.mem_map.mp h3
      rcases mem_dictInsert hq with h4 | h4
      · subst h4; exact Or.inr (by simp [← hq2])
      · exact Or.inl (by rw [← hq2]; exact List.mem_map_of_mem _ h4)
    · exact Or.inr (by simp [h3])

theorem opsDictOf_lookup_notin (vals : List SpecOperation)
    (acc : List (String × SpecOperation)) (k : String)
    (h : k ∉ vals.map (fun op => op.name)) :
    dictLookup k (opsDictOf acc vals) = dictLookup k acc := by
  induction vals generalizing acc with
  | nil => rfl
  | cons v rest ih =>
    simp only [List.map_cons, List.mem_cons] at h
    push_neg at h
    rw [opsDictOf, ih _ h.2]
    by_cases hpred : (!v.is_async && v.yaml.attribute_set.isSome) = true
    · rw [if_pos hpred, dictLookup_dictInsert_ne _ _ h.1]
    · rw [if_neg hpred]

theorem opsDictOf_lookup (vals : List SpecOperation) (acc : List (String × SpecOperation))
    (op : SpecOperation) (hmem : op ∈ vals)
    (hnd : (vals.map (fun o => o.name)).Nodup) (hacc : op.name ∉ acc.map Prod.fst) :
    dictLookup op.name (opsDictOf acc vals)
      = (if !op.is_async && op.yaml.attribute_set.isSome then some op else none) := by
  induction vals generalizing acc with
  | nil => simp at hmem
  | cons v rest ih =>
    simp only [List.map_cons, List.nodup_cons] at hnd
    rcases List.mem_cons.mp hmem with h3 | h3
    · subst h3
      have hnotin : op.name ∉ rest.map (fun o => o.name) := hnd.1
      rw [opsDictOf, opsDictOf_lookup_notin rest _ _ hnotin]
      by_cases hpred : (!op.is_async && op.yaml.attribute_set.isSome) = true
      · rw [if_pos hpred, if_pos hpred, dictLookup_dictInsert_self]
      · rw [if_neg hpred, if_neg hpred, dictLookup_eq_none hacc]
    · have hvne : op.name ≠ v.name := by
        intro heq
        exact hnd.1 (heq ▸ List.mem_map_of_mem _ h3)
      rw [opsDictOf]
      apply ih _ h3 hnd.2
      by_cases hpred : (!v.is_async && v.yaml.attribute_set.isSome) = true
      · rw [if_pos hpred]
        intro hmem2
        rcases keys_dictInsert hmem2 with h4 | h4
        · exact hvne h4
        · exact hacc h4
      · rw [if_neg hpred]
        exact hacc

theorem mkSpecOperation_resv_async (e : OpEntry) (rv sv : Option Int)
    (h : (mkSpecOperation e rv sv).is_resv = true) :
    (mkSpecOperation e rv sv).is_async = false := by
  simp only [mkSpecOperation] at h ⊢
  cases hn : e.notify.isSome <;> cases hev : e.event <;> simp [hn, hev] at h ⊢

theorem runLoop_success_preserve (fuel : Nat) (q : List Elem) (st : FamilyState)
    (le : Option String) (st2 : FamilyState) (hq : NoFam q)
    (h : runLoop fuel q st le = .success st2) :
    st2.attr_sets = st.attr_sets ∧ st2.msgs = st.msgs ∧ st2.req_by_value = st.req_by_value
      ∧ st2.rsp_by_value = st.rsp_by_value ∧ st2.ops = st.ops := by
  induction fuel generalizing q st le with
  | zero =>
    cases q with
    | nil =>
      simp only [runLoop, LoadResult.success.injEq] at h
      subst h
      exact ⟨rfl, rfl, rfl, rfl, rfl⟩
    | cons e rest => simp [runLoop] at h
  | succ f ih =>
    cases q with
    | nil =>
      simp only [runLoop, LoadResult.success.injEq] at h
      subst h
      exact ⟨rfl, rfl, rfl, rfl, rfl⟩
    | cons e rest =>
      rw [runLoop] at h
      cases hp : runPass (e :: rest) st [] 0 le with
      | error m => rw [hp] at h; simp at h
      | ok res =>
        obtain ⟨st', nq, n, le'⟩ := res
        rw [hp] at h
        by_cases hn : n = 0
        · simp [hn] at h
        · have h2 : runLoop f nq st' le' = .success st2 := by
            simpa [hn] using h
          have hprog := runPass_progress (e :: rest) st [] 0 le st' nq n le' hq
            (by intro x hx; simp at hx) hp
          have hpres := runPass_preserve (e :: rest) st [] 0 le st' nq n le' hq hp
          obtain ⟨p1, p2, p3, p4, p5⟩ := ih nq st' le' hprog.1 h2
          obtain ⟨q1, q2, q3, q4, q5⟩ := hpres
          exact ⟨p1.trans q1, p2.trans q2, p3.trans q3, p4.trans q4, p5.trans q5⟩

theorem loadFamily_success (d : SpecDoc) (st : FamilyState)
    (h : loadFamily d = .success st) :
    ∃ st1 kids, resolveFam d (initState d) = .ok (st1, kids)
      ∧ st.msgs = st1.msgs ∧ st.ops = st1.ops := by
  rw [loadFamily] at h
  have hN : numElems d
      = ((attrChildren d.attribute_sets).length + d.operations.list.length) + 1 := by
    rw [numElems_eq]; omega
  rw [hN] at h
  cases hres : resolveFam d (initState d) with
  | error err =>
    cases err with
    | deferred m =>
      have hp : runPass [Elem.fam d] (initState d) [] 0 none
          = .ok (initState d, [Elem.fam d], 0, some m) := by
        simp [runPass, resolveElem, hres]
      rw [runLoop, hp] at h
      simp at h
    | fatal m =>
      have hp : runPass [Elem.fam d] (initState d) [] 0 none = .error m := by
        simp [runPass, resolveElem, hres]
      rw [runLoop, hp] at h
      simp at h
  | ok pair =>
    obtain ⟨st1, kids⟩ := pair
    have hp : runPass [Elem.fam d] (initState d) [] 0 none = .ok (st1, kids, 1, none) := by
      simp [runPass, resolveElem, hres]
    rw [runLoop, hp] at h
    have h2 : runLoop ((attrChildren d.attribute_sets).length + d.operations.list.length)
        kids st1 none = .success st := by
      simpa using h
    have hnf := (resolveFam_ok d _ _ _ hres).1
    have hpres := runLoop_success_preserve _ kids st1 none st hnf h2
    exact ⟨st1, kids, rfl, hpres.2.1, hpres.2.2.2.2⟩

theorem resolveFam_shape (d : SpecDoc) (st st' : FamilyState) (kids : List Elem)
    (h : resolveFam d st = .ok (st', kids)) :
    ∃ opList : List SpecOperation,
      st'.msgs = msgsOf st.msgs opList
      ∧ st'.ops = opsDictOf st.ops ((msgsOf st.msgs opList).map Prod.snd)
      ∧ ∀ o ∈ opList, ∃ e rv sv, o = mkSpecOperation e rv sv := by
  simp only [resolveFam] at h
  split at h
  · simp at h
  · rename_i opList heq
    simp only [Except.ok.injEq, Prod.mk.injEq] at h
    obtain ⟨hst, hkids⟩ := h
    subst hst
    refine ⟨opList, rfl, rfl, ?_⟩
    split at heq
    · simp only [Except.ok.injEq] at heq
      subst heq
      intro o ho
      exact dictifyUnified_mem _ _ _ ho
    · split at heq
      · split at heq
        · rename_i l' hrec
          simp only [Except.ok.injEq] at heq
          subst heq
          intro o ho
          exact dictifyDirectional_mem _ _ _ _ hrec o ho
        · simp at heq
      · simp only [Except.ok.injEq] at heq
        subst heq
        intro o ho
        simp at ho

/-- C8, amended: in every successfully resolved family, a reserved
operation is listed in the full name-indexed catalog `msgs`, and it is
listed in the filtered catalog `ops` exactly when its raw entry declares
an explicit `attribute-set` key (the filter is "not async and
`attribute-set` present", and a reserved operation's entry may carry
that key); in particular a reserved operation with no declared
attribute-set is absent from `ops`. -/
theorem c8_reserved_ops_amended (d : SpecDoc) (st : FamilyState) (nm : String)
    (op : SpecOperation) (h : loadFamily d = .success st)
    (hmsg : dictLookup nm st.msgs = some op) (hresv : op.is_resv = true) :
    dictLookup nm st.ops = (if op.yaml.attribute_set.isSome then some op else none) := by
  obtain ⟨st1, kids, hres, hm, ho⟩ := loadFamily_success d st h
  obtain ⟨opList, hm1, ho1, hmk⟩ := resolveFam_shape d _ _ _ hres
  rw [hm, hm1] at hmsg
  rw [ho, ho1]
  simp only [initState] at hmsg ⊢
  have hinv := msgsOf_keys_inv opList [] (by simp) (by simp)
  have hpair := dictLookup_mem hmsg
  have hname : op.name = nm := hinv.2 (nm, op) hpair
  have hval : op ∈ (msgsOf [] opList).map Prod.snd := List.mem_map_of_mem _ hpair
  have hnames_eq : ((msgsOf [] opList).map Prod.snd).map (fun o => o.name)
      = (msgsOf [] opList).map Prod.fst := by
    rw [List.map_map]
    apply List.map_congr_left
    intro p hp
    exact hinv.2 p hp
  have hnd : (((msgsOf [] opList).map Prod.snd).map (fun o => o.name)).Nodup := by
    rw [hnames_eq]; exact hinv.1
  have hasync : op.is_async = false := by
    rcases msgsOf_val_mem opList [] (nm, op) hpair with h1 | h1
    · simp at h1
    · obtain ⟨e, rv, sv, rfl⟩ := hmk op h1
      exact mkSpecOperation_resv_async e rv sv hresv
  rw [← hname]
  rw [opsDictOf_lookup _ [] op hval hnd (by simp)]
  simp [hasync]

/-- Reserved operation entry (no `do`/`dump`/`notify`/`event`) that
nevertheless declares an `attribute-set` key. -/
def opEntryResvAttr : OpEntry :=
  { name := "r", value := none, do_mode := none, dump_mode := none,
    notify := none, event := false, attribute_set := some "s" }

/-- Document whose only operation is the reserved entry declaring an
attribute set (which exists). -/
def resvOpDoc : SpecDoc :=
  { protocol := none, attribute_sets := [attrSetDeclW],
    operations := { enum_model := none, list := [opEntryResvAttr] } }

/-- C8, counterexample: resolving `resvOpDoc` succeeds, its operation "r"
is classified reserved, yet "r" *is* present in the filtered
valid-operations catalog, because the filter admits any non-async
operation whose raw entry carries an `attribute-set` key. -/
theorem c8_reserved_ops_counterexample :
    (resultState (loadFamily resvOpDoc)).isSome = true
    ∧ ((resultState (loadFamily resvOpDoc)).bind (fun st => dictLookup "r" st.msgs)).map
        (fun o => o.is_resv) = some true
    ∧ ((resultState (loadFamily resvOpDoc)).bind (fun st => dictLookup "r" st.ops)).isSome
        = true := by
  exact ⟨rfl, rfl, rfl⟩

/-- Reserved operation entry with no attribute-set key. -/
def opEntryResvPlain : OpEntry :=
  { name := "z", value := none, do_mode := none, dump_mode := none,
    notify := none, event := false, attribute_set := none }

/-- Document whose only operation is the plain reserved entry. -/
def resvPlainDoc : SpecDoc :=
  { protocol := none, attribute_sets := [],
    operations := { enum_model := none, list := [opEntryResvPlain] } }

/-- Witness for C8 amended: in the resolved `resvPlainDoc`, the reserved
operation "z" (no attribute-set key) is absent from the filtered
catalog. -/
theorem c8_reserved_ops_amended_witness :
    dictLookup "z" ((resultState (loadFamily resvPlainDoc)).getD (initState resvPlainDoc)).ops
      = (if (mkSpecOperation opEntryResvPlain (some 0) (some 0)).yaml.attribute_set.isSome
          then some (mkSpecOperation opEntryResvPlain (some 0) (some 0)) else none) :=
  c8_reserved_ops_amended resvPlainDoc
    ((resultState (loadFamily resvPlainDoc)).getD (initState resvPlainDoc)) "z"
    (mkSpecOperation opEntryResvPlain (some 0) (some 0)) (by decide) (by decide) (by decide)
